import Mathlib

/-!
# Verification of the gloat migration library core

Shallow embedding of the `gloat` Go package (migration entity, migration
set algebra, orchestration queries and the executor contract) together
with proofs about the embedded operations.

Modelling conventions:
* Go `time.Time` values are modelled as natural numbers (`Nat`); the zero
  value is `0`, `Before` is `<` and `After` is `>`.
* Go `int64` is modelled as `Int`; `strconv.ParseInt` performs an explicit
  range check against `2 ^ 63`.
* Go `[]byte` is modelled as `List Nat`; a `nil` slice is `[]`.
* Fallible Go functions returning `(T, error)` are modelled with `Except`
  (or `Option` where only presence matters).
* `sort.Sort` (in-place, comparison by `Migrations.Less`) is modelled by
  `List.insertionSort` with the corresponding non-strict relation.  For
  collections whose sort keys are pairwise distinct this is exactly the
  (unique) result of any correct sort; for tied keys Go's quicksort order
  is unspecified and the model fixes one admissible order.
* Pointer mutation performed by a Go loop is modelled by also defining the
  post-state of the mutated input list (`migrationsIntersectPost`).
-/

namespace Gloat

/-- Modelled from the spec: the options payload decoder (`options.go`) is
not among the provided sources — only its callers are.  Per the spec the
only recognized option is the statement-grouping mode. -/
structure MigrationOptions where
  statementGrouping : Bool
deriving DecidableEq, Repr

/-- Modelled from the spec: `DefaultMigrationOptions` (absent from the
sources) produces the baseline configuration. -/
def DefaultMigrationOptions : MigrationOptions :=
  { statementGrouping := false }

/-- The `Migration` struct of `migration.go`: forward and reverse script
bytes, origin path, version, options and the applied-at timestamp. -/
structure Migration where
  UpSQL : List Nat
  DownSQL : List Nat
  Path : String
  Version : Int
  Options : MigrationOptions
  AppliedAt : Nat
deriving DecidableEq, Repr

/-- `Migration.Reversible`: true iff the `DownSQL` content is present. -/
def Migration.Reversible (m : Migration) : Bool :=
  m.DownSQL.length != 0

/-- `Migration.Persistable`: any migration with non-blank `Path`. -/
def Migration.Persistable (m : Migration) : Bool :=
  m.Path != ""

/-- A convenient constructor for ledger-style entries (only version and
applied-at metadata populated), as produced by a store `Collect`. -/
def mkEntry (v : Int) (t : Nat) : Migration :=
  { UpSQL := [], DownSQL := [], Path := "", Version := v,
    Options := DefaultMigrationOptions, AppliedAt := t }

/-- The version column of a collection. -/
def versionsOf (l : List Migration) : List Int :=
  l.map (·.Version)

/-- `Migrations.Less` of `migration.go`: compare by `AppliedAt`
(`Before` / `After`), breaking ties by `Version`. -/
def lessM (a b : Migration) : Prop :=
  a.AppliedAt < b.AppliedAt ∨ (a.AppliedAt = b.AppliedAt ∧ a.Version < b.Version)

instance : DecidableRel lessM := fun a b =>
  inferInstanceAs (Decidable (_ ∨ _))

/-- The non-strict order underlying an ascending `sort.Sort` run with
`Migrations.Less`: element `a` may precede `b` iff `¬ Less b a`. -/
def leM (a b : Migration) : Prop := ¬ lessM b a

/-- The non-strict order underlying `ReverseSort` (`sort.Reverse` flips
the `Less` comparisons): `a` may precede `b` iff `¬ Less a b`. -/
def geM (a b : Migration) : Prop := ¬ lessM a b

instance : DecidableRel leM := fun a b =>
  inferInstanceAs (Decidable (¬ _))

instance : DecidableRel geM := fun a b =>
  inferInstanceAs (Decidable (¬ _))

/-- `Migrations.Sort`: ascending in-place sort by `Less`. -/
def sortM (l : List Migration) : List Migration :=
  l.insertionSort leM

/-- `Migrations.ReverseSort`: in-place sort by the reversed `Less`. -/
def reverseSortM (l : List Migration) : List Migration :=
  l.insertionSort geM

/-- The Go map `store[version] = appliedAt` built by iterating a
collection: later entries overwrite earlier ones, so a lookup returns the
`AppliedAt` of the last entry carrying the version, if any. -/
def lookupAppliedAt (l : List Migration) (v : Int) : Option Nat :=
  (l.reverse.find? (fun a => a.Version == v)).map (·.AppliedAt)

/-- Membership test against the version-keyed map of a collection. -/
def hasVersion (l : List Migration) (v : Int) : Bool :=
  l.any (fun a => a.Version == v)

/-- `Migrations.Except` of `migration.go`: entries of the argument whose
`Version` is absent from the receiver.  (The `will` lookup in the Go loop
consults a map built from the argument itself and always succeeds.) -/
def migrationsExcept (m migrations : List Migration) : List Migration :=
  migrations.filter (fun mg => !(hasVersion m mg.Version))

/-- `Migrations.Intersect` of `migration.go`: entries of the argument
whose `Version` is present in the receiver, with `AppliedAt` overwritten
by the receiver-side value.  The Go loop appends the (mutated) argument
entries in argument order, which is a `filterMap`. -/
def migrationsIntersect (m migrations : List Migration) : List Migration :=
  migrations.filterMap (fun mg =>
    match lookupAppliedAt m mg.Version with
    | some t => some { mg with AppliedAt := t }
    | none => none)

/-- Post-state of the argument collection of `Migrations.Intersect`: the
Go loop assigns `migration.AppliedAt = appliedAt` through the shared
pointers of the argument slice, so matched entries are mutated in place. -/
def migrationsIntersectPost (m migrations : List Migration) : List Migration :=
  migrations.map (fun mg =>
    match lookupAppliedAt m mg.Version with
    | some t => { mg with AppliedAt := t }
    | none => mg)

/-- `Migrations.Current` of `migration.go`, result value: sort the
receiver in place, return the last element (or `nil` when empty). -/
def migrationsCurrentVal (l : List Migration) : Option Migration :=
  (sortM l).getLast?

/-- `Migrations.Current`, receiver post-state: the call begins with
`m.Sort()`, which reorders the caller's backing array. -/
def migrationsCurrentPost (l : List Migration) : List Migration :=
  sortM l

/-- `UnappliedMigrations` of `migration.go` with the two `Collect` calls
already materialised as lists: `applied.Except(incoming)` then an
in-place ascending `Sort` of the result. -/
def unappliedMigrations (applied incoming : List Migration) : List Migration :=
  sortM (migrationsExcept applied incoming)

/-- Error value for `AppliedAfter` (`ErrNotFound` in `migration.go`). -/
inductive GloatError where
  | notFound
deriving DecidableEq, Repr

/-- The accumulation loop of `AppliedAfter`: scan the applied collection
in its given order, collecting entries until the target version is met;
`none` when the target version never occurs. -/
def appliedAfterScan (applied : List Migration) (v : Int) :
    Option (List Migration) :=
  match applied with
  | [] => none
  | mg :: rest =>
    if mg.Version = v then some []
    else (appliedAfterScan rest v).map (mg :: ·)

/-- `AppliedAfter` of `migration.go` with the two `Collect` calls already
materialised: accumulate the applied entries before the target, fail with
`ErrNotFound` if the target version is absent, otherwise `ReverseSort`
the accumulation, intersect it with the available set and `ReverseSort`
the intersection. -/
def appliedAfterFn (applied available : List Migration) (v : Int) :
    Except GloatError (List Migration) :=
  match appliedAfterScan applied v with
  | none => .error .notFound
  | some pre => .ok (reverseSortM (migrationsIntersect (reverseSortM pre) available))

/-- `Gloat.Latest` of `gloat.go`: `Source.Collect()` then `.Current()`. -/
def gloatLatest (available : List Migration) : Option Migration :=
  migrationsCurrentVal available

/-- `Gloat.Current` of `gloat.go`: take the current applied migration;
if `nil`, return `nil` with no error; otherwise scan the available set
from the end for a matching version, copy the applied-at time onto the
match and return it, or return `nil` (still no error) when no available
entry carries that version. -/
def gloatCurrent (applied available : List Migration) : Option Migration :=
  match migrationsCurrentVal applied with
  | none => none
  | some cur =>
    match available.reverse.find? (fun mg => mg.Version == cur.Version) with
    | some mg => some { mg with AppliedAt := cur.AppliedAt }
    | none => none

/-! ### Reading a migration from bytes (`MigrationFromBytes`) -/

/-- Splitting a character list at every occurrence of a separator, the
semantics of Go's `strings.Split` for a one-character separator (always
at least one component). -/
def splitOnChar (sep : Char) : List Char → List (List Char)
  | [] => [[]]
  | c :: rest =>
    if c = sep then [] :: splitOnChar sep rest
    else
      match splitOnChar sep rest with
      | [] => [[c]]
      | g :: gs => (c :: g) :: gs

/-- `filepath.Base`: the last non-empty path segment (`"."` for the empty
path, `"/"` when the path consists only of separators). -/
def filepathBase (p : String) : String :=
  if p = "" then "."
  else
    match ((splitOnChar '/' p.data).filter (fun s => s ≠ [])).getLast? with
    | some s => String.mk s
    | none => "/"

/-- `filepath.Join` of a directory and a file name, for the non-empty
directory paths used by `MigrationFromBytes`. -/
def pathJoin (dir file : String) : String :=
  if dir = "" then file else dir ++ "/" ++ file

/-- `strconv.ParseInt(s, 10, 64)` applied to the characters of the
argument: optional sign, at least one decimal digit, result within the
signed 64-bit range. -/
def parseInt64 (s : String) : Except String Int :=
  let signAndCore : Int × List Char :=
    match s.data with
    | '-' :: rest => (-1, rest)
    | '+' :: rest => (1, rest)
    | cs => (1, cs)
  let sign := signAndCore.1
  let core := signAndCore.2
  if core = [] then .error "invalid syntax"
  else if core.all (fun c => c.isDigit) then
    let n : Int :=
      sign * ((core.foldl (fun acc c => acc * 10 + (c.toNat - 48)) 0 : Nat) : Int)
    if -(2 ^ 63) ≤ n ∧ n < 2 ^ 63 then .ok n else .error "value out of range"
  else .error "invalid syntax"

/-- `versionFromPath` of `migration.go`: split the path's base segment on
the first underscore and parse the leading component as an `int64`.  (The
`len(parts) == 0` guard in the Go code is dead: `SplitN` always returns
at least one component.) -/
def versionFromPath (path : String) : Except String Int :=
  parseInt64 (String.mk ((splitOnChar '_' (filepathBase path).data).headD []))

/-- Modelled from the spec: `parseMigrationOptions` (`options.go`) is not
among the provided sources.  An absent payload (Go `nil`, here `[]`)
yields the baseline configuration; a malformed payload is a fatal error.
Well-formed payloads are modelled as the byte `1` (grouping on) or `0`
(grouping off). -/
def parseMigrationOptions (payload : List Nat) : Except String MigrationOptions :=
  if payload = [] then .ok DefaultMigrationOptions
  else if payload = [1] then .ok { statementGrouping := true }
  else if payload = [0] then .ok { statementGrouping := false }
  else .error "malformed options payload"

/-- `MigrationFromBytes` of `migration.go`: parse the version from the
path; read `up.sql` (a read failure aborts); read `down.sql`, ignoring a
failure (embedded irreversible migrations); read `options.json`, treating
a failure as a `nil` payload; parse the options (a parse failure aborts);
assemble the migration with a zero `AppliedAt`. -/
def migrationFromBytes (path : String)
    (read : String → Except String (List Nat)) : Except String Migration :=
  match versionFromPath path with
  | .error e => .error e
  | .ok version =>
    match read (pathJoin path "up.sql") with
    | .error e => .error e
    | .ok upSQL =>
      let downSQL := ((read (pathJoin path "down.sql")).toOption).getD []
      let optionsJSON := ((read (pathJoin path "options.json")).toOption).getD []
      match parseMigrationOptions optionsJSON with
      | .error e => .error e
      | .ok options =>
        .ok { UpSQL := upSQL, DownSQL := downSQL, Path := path,
              Version := version, Options := options, AppliedAt := 0 }

/-! ### The executor contract (modelled from the spec) -/

/-- Failure taxonomy of the executor (spec §4.4). -/
inductive ExecError where
  | irreversible
  | scriptExecution
  | ledger
deriving DecidableEq, Repr

/-- Modelled from the spec: the `Executor` implementation
(`SQLExecutor.Down` of `executor.go`) is not among the provided sources —
only its tests and callers are.  Per the spec, `Down(migration, store)`
fails immediately with `IrreversibleError` if `DownSQL` is empty;
otherwise it applies the reverse script and removes the ledger record as
one unit of work (a script failure rolls back, leaving the ledger
unchanged).  The store's ledger is the list of applied entries; the
outcome of running the reverse script against the backing database is
modelled by the `scriptSucceeds` flag. -/
def executorDown (m : Migration) (ledger : List Migration)
    (scriptSucceeds : Bool) : Option ExecError × List Migration :=
  if m.DownSQL = [] then (some .irreversible, ledger)
  else if scriptSucceeds then
    (none, ledger.filter (fun a => a.Version != m.Version))
  else (some .scriptExecution, ledger)

/-! ### Order-theoretic facts about `Migrations.Less` -/

theorem lessM_asymm {a b : Migration} (h : lessM a b) : ¬ lessM b a := by
  unfold lessM at *
  omega

theorem leM_total (a b : Migration) : leM a b ∨ leM b a := by
  unfold leM lessM
  omega

theorem leM_trans {a b c : Migration} (hab : leM a b) (hbc : leM b c) :
    leM a c := by
  unfold leM lessM at *
  omega

theorem geM_trans {a b c : Migration} (hab : geM a b) (hbc : geM b c) :
    geM a c := by
  unfold geM lessM at *
  omega

instance : IsTotal Migration leM := ⟨leM_total⟩

instance : IsTrans Migration leM := ⟨fun _ _ _ => leM_trans⟩

instance : IsTotal Migration geM := ⟨fun a b => by unfold geM lessM; omega⟩

instance : IsTrans Migration geM := ⟨fun _ _ _ => geM_trans⟩

/-- Between migrations of distinct versions, `leM` is strict. -/
theorem lessM_of_leM_of_ne {a b : Migration} (h : leM a b)
    (hne : a.Version ≠ b.Version) : lessM a b := by
  unfold leM lessM at *
  omega

/-- Between migrations of distinct versions, `geM` is reversed-strict. -/
theorem lessM_of_geM_of_ne {a b : Migration} (h : geM a b)
    (hne : a.Version ≠ b.Version) : lessM b a := by
  unfold geM lessM at *
  omega

/-! ### Sortedness and permutation facts for the two sorts -/

theorem sortM_perm (l : List Migration) : (sortM l).Perm l :=
  List.perm_insertionSort leM l

theorem sortM_sorted (l : List Migration) : (sortM l).Sorted leM :=
  List.sorted_insertionSort leM l

theorem reverseSortM_perm (l : List Migration) : (reverseSortM l).Perm l :=
  List.perm_insertionSort geM l

theorem reverseSortM_sorted (l : List Migration) :
    (reverseSortM l).Sorted geM :=
  List.sorted_insertionSort geM l

/-- With pairwise-distinct versions, an ascending-sorted list is strictly
ascending. -/
theorem pairwise_lessM_of_sorted {l : List Migration}
    (hs : l.Sorted leM) (hn : (versionsOf l).Nodup) :
    l.Pairwise lessM := by
  have hne : l.Pairwise (fun a b : Migration => a.Version ≠ b.Version) :=
    List.pairwise_map.mp hn
  exact (List.Pairwise.and hs hne).imp fun h => lessM_of_leM_of_ne h.1 h.2

/-- With pairwise-distinct versions, a descending-sorted list is strictly
descending. -/
theorem pairwise_gtM_of_sorted {l : List Migration}
    (hs : l.Sorted geM) (hn : (versionsOf l).Nodup) :
    l.Pairwise (fun a b => lessM b a) := by
  have hne : l.Pairwise (fun a b : Migration => a.Version ≠ b.Version) :=
    List.pairwise_map.mp hn
  exact (List.Pairwise.and hs hne).imp fun h => lessM_of_geM_of_ne h.1 h.2

/-- Two permuted strictly-descending lists are equal. -/
theorem eq_of_perm_of_pairwise_gt {l₁ l₂ : List Migration}
    (hp : l₁.Perm l₂) (h₁ : l₁.Pairwise (fun a b => lessM b a))
    (h₂ : l₂.Pairwise (fun a b => lessM b a)) : l₁ = l₂ := by
  haveI : IsAntisymm Migration (fun a b => lessM b a) :=
    ⟨fun _ _ hab hba => absurd hab (lessM_asymm hba)⟩
  exact List.eq_of_perm_of_sorted hp h₁ h₂

/-! ### The version-keyed map -/

theorem versionsOf_nil : versionsOf [] = [] := rfl

theorem versionsOf_cons (mg : Migration) (rest : List Migration) :
    versionsOf (mg :: rest) = mg.Version :: versionsOf rest := rfl

theorem mem_versionsOf {l : List Migration} {v : Int} :
    v ∈ versionsOf l ↔ ∃ a, a ∈ l ∧ a.Version = v :=
  List.mem_map

theorem versionsOf_perm {l₁ l₂ : List Migration} (hp : l₁.Perm l₂) :
    (versionsOf l₁).Perm (versionsOf l₂) :=
  hp.map _

theorem hasVersion_iff {l : List Migration} {v : Int} :
    hasVersion l v = true ↔ v ∈ versionsOf l := by
  unfold hasVersion
  rw [mem_versionsOf]
  simp only [List.any_eq_true, beq_iff_eq]

theorem lookupAppliedAt_eq_none_iff {l : List Migration} {v : Int} :
    lookupAppliedAt l v = none ↔ v ∉ versionsOf l := by
  unfold lookupAppliedAt
  rw [Option.map_eq_none', List.find?_eq_none, mem_versionsOf]
  constructor
  · rintro h ⟨a, ha, hv⟩
    exact h a (List.mem_reverse.mpr ha) (by simp [hv])
  · intro h a ha hv
    exact h ⟨a, List.mem_reverse.mp ha, by simpa using hv⟩

theorem lookupAppliedAt_isSome_iff {l : List Migration} {v : Int} :
    (lookupAppliedAt l v).isSome = true ↔ v ∈ versionsOf l := by
  constructor
  · intro hs
    by_contra hv
    rw [lookupAppliedAt_eq_none_iff.mpr hv] at hs
    simp at hs
  · intro hv
    rcases h : lookupAppliedAt l v with _ | t
    · exact absurd hv (lookupAppliedAt_eq_none_iff.mp h)
    · simp

theorem lookupAppliedAt_mem {l : List Migration} {v : Int} {t : Nat}
    (h : lookupAppliedAt l v = some t) :
    ∃ a, a ∈ l ∧ a.Version = v ∧ a.AppliedAt = t := by
  unfold lookupAppliedAt at h
  rcases hf : l.reverse.find? (fun a => a.Version == v) with _ | a
  · simp [hf] at h
  · refine ⟨a, List.mem_reverse.mp (List.mem_of_find?_eq_some hf), ?_, ?_⟩
    · simpa using List.find?_some hf
    · rw [hf] at h
      exact (by simpa using h.symm : t = a.AppliedAt).symm

/-- With pairwise-distinct versions the map lookup returns the `AppliedAt`
of the (unique) entry carrying the version. -/
theorem lookupAppliedAt_eq_of_mem {l : List Migration} {a : Migration}
    (hn : (versionsOf l).Nodup) (ha : a ∈ l) :
    lookupAppliedAt l a.Version = some a.AppliedAt := by
  rcases h : lookupAppliedAt l a.Version with _ | t
  · exact absurd (mem_versionsOf.mpr ⟨a, ha, rfl⟩) (lookupAppliedAt_eq_none_iff.mp h)
  · obtain ⟨b, hb, hbv, hbt⟩ := lookupAppliedAt_mem h
    have hba : b = a := List.inj_on_of_nodup_map hn hb ha hbv
    rw [← hbt, hba]

/-- With pairwise-distinct versions, permuting the receiver does not
change the version-keyed map. -/
theorem lookupAppliedAt_perm {l₁ l₂ : List Migration} (hp : l₁.Perm l₂)
    (hn : (versionsOf l₁).Nodup) (v : Int) :
    lookupAppliedAt l₁ v = lookupAppliedAt l₂ v := by
  have hn₂ : (versionsOf l₂).Nodup := (versionsOf_perm hp).nodup_iff.mp hn
  by_cases hv : v ∈ versionsOf l₁
  · obtain ⟨a, ha, hav⟩ := mem_versionsOf.mp hv
    rw [← hav, lookupAppliedAt_eq_of_mem hn ha,
      lookupAppliedAt_eq_of_mem hn₂ (hp.mem_iff.mp ha)]
  · rw [lookupAppliedAt_eq_none_iff.mpr hv,
      lookupAppliedAt_eq_none_iff.mpr
        (fun hc => hv ((versionsOf_perm hp).mem_iff.mpr hc))]

/-- Permuting the receiver of `Intersect` (with distinct versions) leaves
the result unchanged: the loop only consults the version-keyed map. -/
theorem migrationsIntersect_perm_left {l₁ l₂ B : List Migration}
    (hp : l₁.Perm l₂) (hn : (versionsOf l₁).Nodup) :
    migrationsIntersect l₁ B = migrationsIntersect l₂ B := by
  unfold migrationsIntersect
  exact List.filterMap_congr fun b _ => by
    rw [lookupAppliedAt_perm hp hn b.Version]

/-! ### The accumulation loop of `AppliedAfter` -/

theorem appliedAfterScan_eq_none_iff {l : List Migration} {v : Int} :
    appliedAfterScan l v = none ↔ v ∉ versionsOf l := by
  induction l with
  | nil => simp [appliedAfterScan, versionsOf_nil]
  | cons mg rest ih =>
    unfold appliedAfterScan
    by_cases h : mg.Version = v
    · rw [if_pos h, versionsOf_cons]
      simp only [List.mem_cons]
      constructor
      · intro hco
        exact Option.noConfusion hco
      · intro hni
        exact absurd (Or.inl h.symm) hni
    · rw [if_neg h, versionsOf_cons, Option.map_eq_none', ih]
      simp only [List.mem_cons]
      constructor
      · rintro hnr (he | hm)
        · exact h he.symm
        · exact hnr hm
      · intro hc hm
        exact hc (Or.inr hm)

theorem appliedAfterScan_eq_takeWhile {l : List Migration} {v : Int}
    (hv : v ∈ versionsOf l) :
    appliedAfterScan l v = some (l.takeWhile (fun mg => mg.Version != v)) := by
  induction l with
  | nil => simp [versionsOf_nil] at hv
  | cons mg rest ih =>
    unfold appliedAfterScan
    by_cases h : mg.Version = v
    · rw [if_pos h]
      have hb : (mg.Version != v) = false := by simp [h]
      rw [List.takeWhile_cons, hb]
      rfl
    · have hv' : v ∈ versionsOf rest := by
        rw [versionsOf_cons, List.mem_cons] at hv
        rcases hv with he | hm
        · exact absurd he.symm h
        · exact hm
      have hb : (mg.Version != v) = true := by simp [h]
      rw [if_neg h, ih hv', List.takeWhile_cons, hb]
      rfl

/-- `Intersect` equals a filter (by version presence in the receiver)
followed by the `AppliedAt` overwrite. -/
theorem migrationsIntersect_eq_filter_map (A B : List Migration) :
    migrationsIntersect A B =
      (B.filter (fun b => hasVersion A b.Version)).map
        (fun b => { b with
          AppliedAt := (lookupAppliedAt A b.Version).getD b.AppliedAt }) := by
  induction B with
  | nil => rfl
  | cons b rest ih =>
    unfold migrationsIntersect at ih ⊢
    rcases h : lookupAppliedAt A b.Version with _ | t
    · have hb : hasVersion A b.Version = false := by
        rcases hh : hasVersion A b.Version with _ | _
        · rfl
        · exact absurd (hasVersion_iff.mp hh) (lookupAppliedAt_eq_none_iff.mp h)
      rw [List.filterMap_cons, List.filter_cons, h, hb]
      simpa using ih
    · have hb : hasVersion A b.Version = true := by
        obtain ⟨a, ha, hav, _⟩ := lookupAppliedAt_mem h
        exact hasVersion_iff.mpr (mem_versionsOf.mpr ⟨a, ha, hav⟩)
      rw [List.filterMap_cons, List.filter_cons, h, hb]
      simp only [if_true, List.map_cons, h, Option.getD_some]
      rw [ih]

/-! ## Claim theorems -/

/-- C2: for every migration whose `DownSQL` is empty and every store
state, `Executor.Down` fails immediately with `IrreversibleError` and the
store's applied ledger is unchanged — no ledger mutation occurs,
whatever the outcome the reverse script would have had. -/
theorem C2_down_irreversible (m : Migration) (ledger : List Migration)
    (scriptSucceeds : Bool) (h : m.DownSQL = []) :
    executorDown m ledger scriptSucceeds = (some .irreversible, ledger) := by
  simp [executorDown, h]

/-- Witness for C2 at a concrete irreversible migration and ledger. -/
theorem C2_down_irreversible_witness :
    (mkEntry 1 0).DownSQL = [] ∧
    executorDown (mkEntry 1 0) [mkEntry 1 0, mkEntry 2 0] true =
      (some .irreversible, [mkEntry 1 0, mkEntry 2 0]) :=
  ⟨rfl, C2_down_irreversible _ _ _ rfl⟩

/-- C8: for every applied ledger and available set, if the target version
is absent from the applied versions then `AppliedAfter` fails with
`ErrNotFound` and returns no migrations. -/
theorem C8_appliedAfter_notFound (A S : List Migration) (v : Int)
    (hv : v ∉ versionsOf A) :
    appliedAfterFn A S v = .error .notFound := by
  unfold appliedAfterFn
  rw [appliedAfterScan_eq_none_iff.mpr hv]

/-- Witness for C8: version 1 is not among the applied versions. -/
theorem C8_appliedAfter_notFound_witness :
    (1 : Int) ∉ versionsOf [mkEntry 2 0, mkEntry 3 0] ∧
    appliedAfterFn [mkEntry 2 0, mkEntry 3 0] [mkEntry 2 0] 1 =
      .error .notFound :=
  ⟨by decide, C8_appliedAfter_notFound _ _ _ (by decide)⟩

/-- C10: `Migrations.Current` sorts its receiver in place, ascending by
`AppliedAt` then `Version` (the caller's collection order may change),
and returns the last element of the sorted collection, `nil` exactly when
the collection is empty; `Gloat.Latest` is that call on the available
set. -/
theorem C10_current_sorts_in_place (l : List Migration) :
    migrationsCurrentPost l = sortM l ∧
    (migrationsCurrentPost l).Perm l ∧
    (migrationsCurrentPost l).Sorted leM ∧
    migrationsCurrentVal l = (migrationsCurrentPost l).getLast? ∧
    (migrationsCurrentVal l = none ↔ l = []) ∧
    gloatLatest l = migrationsCurrentVal l := by
  refine ⟨rfl, sortM_perm l, sortM_sorted l, rfl, ?_, rfl⟩
  unfold migrationsCurrentVal
  rw [List.getLast?_eq_none_iff]
  constructor
  · intro h
    have hp := (sortM_perm l).symm
    rw [h] at hp
    exact hp.eq_nil
  · intro h
    rw [h]
    rfl

/-- Witness for C10 at a collection whose order changes. -/
theorem C10_current_sorts_in_place_witness :
    migrationsCurrentPost [mkEntry 2 0, mkEntry 1 0] =
        sortM [mkEntry 2 0, mkEntry 1 0] ∧
      (migrationsCurrentPost [mkEntry 2 0, mkEntry 1 0]).Perm
        [mkEntry 2 0, mkEntry 1 0] ∧
      (migrationsCurrentPost [mkEntry 2 0, mkEntry 1 0]).Sorted leM ∧
      migrationsCurrentVal [mkEntry 2 0, mkEntry 1 0] =
        (migrationsCurrentPost [mkEntry 2 0, mkEntry 1 0]).getLast? ∧
      (migrationsCurrentVal [mkEntry 2 0, mkEntry 1 0] = none ↔
        ([mkEntry 2 0, mkEntry 1 0] : List Migration) = []) ∧
      gloatLatest [mkEntry 2 0, mkEntry 1 0] =
        migrationsCurrentVal [mkEntry 2 0, mkEntry 1 0] :=
  C10_current_sorts_in_place [mkEntry 2 0, mkEntry 1 0]

/-- C4: `A.Intersect(B)` returns exactly the entries of `B` whose
`Version` is present in `A`, with the applied-time metadata copied from
the matching `A`-side entry onto each result, and intersecting with an
empty collection on either side yields the empty collection (not an
error). -/
theorem C4_intersect_spec (A B : List Migration) :
    migrationsIntersect A ([] : List Migration) = [] ∧
    migrationsIntersect ([] : List Migration) B = [] ∧
    migrationsIntersect A B =
      (B.filter (fun b => hasVersion A b.Version)).map
        (fun b => { b with
          AppliedAt := (lookupAppliedAt A b.Version).getD b.AppliedAt }) ∧
    (∀ b', b' ∈ migrationsIntersect A B →
      ∃ a, a ∈ A ∧ a.Version = b'.Version ∧ b'.AppliedAt = a.AppliedAt) ∧
    ((versionsOf A).Nodup → ∀ b', b' ∈ migrationsIntersect A B →
      ∀ a, a ∈ A → a.Version = b'.Version → b'.AppliedAt = a.AppliedAt) := by
  refine ⟨rfl, ?_, migrationsIntersect_eq_filter_map A B, ?_, ?_⟩
  · rw [migrationsIntersect_eq_filter_map]
    have : ∀ b : Migration, hasVersion ([] : List Migration) b.Version = false :=
      fun b => rfl
    simp [this]
  · intro b' hmem
    obtain ⟨b, hb, hf⟩ := List.mem_filterMap.mp hmem
    rcases h : lookupAppliedAt A b.Version with _ | t
    · rw [h] at hf
      exact absurd hf (by simp)
    · rw [h] at hf
      obtain ⟨a, ha, hav, hat⟩ := lookupAppliedAt_mem h
      have hb' : b' = { b with AppliedAt := t } := by
        simpa using hf.symm
      refine ⟨a, ha, ?_, ?_⟩
      · rw [hb']
        exact hav
      · rw [hb', hat]
  · intro hn b' hmem a ha hav
    obtain ⟨b, hb, hf⟩ := List.mem_filterMap.mp hmem
    rcases h : lookupAppliedAt A b.Version with _ | t
    · rw [h] at hf
      exact absurd hf (by simp)
    · rw [h] at hf
      have hb' : b' = { b with AppliedAt := t } := by
        simpa using hf.symm
      have hvb : a.Version = b.Version := by
        rw [hav, hb']
      have := lookupAppliedAt_eq_of_mem hn ha
      rw [hvb, h] at this
      have hat : t = a.AppliedAt := by
        simpa using this
      rw [hb', hat]

/-- Witness for C4: the matched result entry carries the `A`-side
applied-time. -/
theorem C4_intersect_spec_witness :
    (versionsOf [mkEntry 1 7]).Nodup ∧
    mkEntry 1 7 ∈ migrationsIntersect [mkEntry 1 7] [mkEntry 1 0, mkEntry 2 3] ∧
    (∃ a, a ∈ [mkEntry 1 7] ∧ a.Version = (mkEntry 1 7).Version ∧
      (mkEntry 1 7).AppliedAt = a.AppliedAt) :=
  ⟨by decide, by decide,
    (C4_intersect_spec [mkEntry 1 7] [mkEntry 1 0, mkEntry 2 3]).2.2.2.1
      (mkEntry 1 7) (by decide)⟩

/-- C3 (counterexample): `Intersect` is not non-mutating.  With
`A = [version 1, applied-at 7]` and `B = [version 1, applied-at 0]`, the
call `A.Intersect(B)` overwrites the `AppliedAt` of `B`'s entry in place,
so `B`'s post-state differs from its input state. -/
theorem C3_intersect_mutates_counterexample :
    migrationsIntersectPost [mkEntry 1 7] [mkEntry 1 0] ≠ [mkEntry 1 0] := by
  decide

/-- C3 (amended): `Except` is pure, and `Intersect` never mutates its
receiver nor any field other than `AppliedAt`; but `Intersect` overwrites
the `AppliedAt` of each argument entry whose `Version` occurs in the
receiver with the receiver-side applied-time (in place, through the
shared pointers), leaving unmatched argument entries unchanged. -/
theorem C3_intersect_mutation_spec (A B : List Migration) :
    List.Forall₂ (fun b b' : Migration =>
      b'.UpSQL = b.UpSQL ∧ b'.DownSQL = b.DownSQL ∧ b'.Path = b.Path ∧
      b'.Version = b.Version ∧ b'.Options = b.Options ∧
      (b.Version ∉ versionsOf A → b' = b) ∧
      ((versionsOf A).Nodup → ∀ a, a ∈ A → a.Version = b.Version →
        b'.AppliedAt = a.AppliedAt))
      B (migrationsIntersectPost A B) := by
  unfold migrationsIntersectPost
  induction B with
  | nil => exact List.Forall₂.nil
  | cons b rest ih =>
    rw [List.map_cons]
    refine List.Forall₂.cons ?_ ih
    rcases h : lookupAppliedAt A b.Version with _ | t
    · refine ⟨rfl, rfl, rfl, rfl, rfl, fun _ => rfl, ?_⟩
      intro _ a ha hav
      exact absurd (mem_versionsOf.mpr ⟨a, ha, hav⟩)
        (lookupAppliedAt_eq_none_iff.mp h)
    · refine ⟨rfl, rfl, rfl, rfl, rfl, ?_, ?_⟩
      · intro hni
        exfalso
        obtain ⟨a, ha, hav, _⟩ := lookupAppliedAt_mem h
        exact hni (mem_versionsOf.mpr ⟨a, ha, hav⟩)
      · intro hn a ha hav
        have hl := lookupAppliedAt_eq_of_mem hn ha
        rw [hav, h] at hl
        simpa using hl

/-- Witness for C3's amended statement at the counterexample input. -/
theorem C3_intersect_mutation_spec_witness :
    List.Forall₂ (fun b b' : Migration =>
      b'.UpSQL = b.UpSQL ∧ b'.DownSQL = b.DownSQL ∧ b'.Path = b.Path ∧
      b'.Version = b.Version ∧ b'.Options = b.Options ∧
      (b.Version ∉ versionsOf [mkEntry 1 7] → b' = b) ∧
      ((versionsOf [mkEntry 1 7]).Nodup → ∀ a, a ∈ [mkEntry 1 7] →
        a.Version = b.Version → b'.AppliedAt = a.AppliedAt))
      [mkEntry 1 0] (migrationsIntersectPost [mkEntry 1 7] [mkEntry 1 0]) :=
  C3_intersect_mutation_spec [mkEntry 1 7] [mkEntry 1 0]

/-- C5 (counterexample): the sort order is not determined by `Version`
alone.  Two migrations with pairwise-distinct versions whose `AppliedAt`
values are reversed sort by `AppliedAt` first, so `Sort` does not yield
ascending `Version` order. -/
theorem C5_sort_counterexample :
    (versionsOf [mkEntry 1 2, mkEntry 2 1]).Nodup ∧
    versionsOf (sortM [mkEntry 1 2, mkEntry 2 1]) = [2, 1] ∧
    ¬ (versionsOf (sortM [mkEntry 1 2, mkEntry 2 1])).Sorted (· ≤ ·) := by
  exact ⟨by decide, by decide, by decide⟩

/-- C5 (amended): for pairwise-distinct versions, `Sort` and
`ReverseSort` are exact inverses — `ReverseSort` yields the reversal of
the `Sort` order — and each is total; but the key is `(AppliedAt,
Version)` lexicographically, not `Version` alone: `Sort` is ascending and
`ReverseSort` descending in that key, reducing to `Version` order only
among entries with equal `AppliedAt`. -/
theorem C5_sort_reverseSort (l : List Migration)
    (hn : (versionsOf l).Nodup) :
    (sortM l).Perm l ∧ (sortM l).Sorted leM ∧
    (reverseSortM l).Perm l ∧ (reverseSortM l).Sorted geM ∧
    reverseSortM l = (sortM l).reverse := by
  refine ⟨sortM_perm l, sortM_sorted l, reverseSortM_perm l,
    reverseSortM_sorted l, ?_⟩
  have hns : (versionsOf (sortM l)).Nodup :=
    (versionsOf_perm (sortM_perm l)).nodup_iff.mpr hn
  have hnr : (versionsOf (reverseSortM l)).Nodup :=
    (versionsOf_perm (reverseSortM_perm l)).nodup_iff.mpr hn
  have h₁ : (reverseSortM l).Pairwise (fun a b => lessM b a) :=
    pairwise_gtM_of_sorted (reverseSortM_sorted l) hnr
  have h₂ : ((sortM l).reverse).Pairwise (fun a b => lessM b a) := by
    rw [List.pairwise_reverse]
    exact pairwise_lessM_of_sorted (sortM_sorted l) hns
  have hp : (reverseSortM l).Perm ((sortM l).reverse) :=
    (reverseSortM_perm l).trans
      ((sortM_perm l).symm.trans ((sortM l).reverse_perm).symm)
  exact eq_of_perm_of_pairwise_gt hp h₁ h₂

/-- Witness for C5's amended statement on a concrete collection. -/
theorem C5_sort_reverseSort_witness :
    (versionsOf [mkEntry 1 2, mkEntry 2 1]).Nodup ∧
    ((sortM [mkEntry 1 2, mkEntry 2 1]).Perm [mkEntry 1 2, mkEntry 2 1] ∧
      (sortM [mkEntry 1 2, mkEntry 2 1]).Sorted leM ∧
      (reverseSortM [mkEntry 1 2, mkEntry 2 1]).Perm
        [mkEntry 1 2, mkEntry 2 1] ∧
      (reverseSortM [mkEntry 1 2, mkEntry 2 1]).Sorted geM ∧
      reverseSortM [mkEntry 1 2, mkEntry 2 1] =
        (sortM [mkEntry 1 2, mkEntry 2 1]).reverse) :=
  ⟨by decide, C5_sort_reverseSort [mkEntry 1 2, mkEntry 2 1] (by decide)⟩

/-- C6 (counterexample): `Unapplied` does not always return ascending
`Version` order.  With an empty applied set and an available set whose
entries carry distinct `AppliedAt` values, the final sort orders by
`AppliedAt` first, producing versions `[2, 1]`. -/
theorem C6_unapplied_counterexample :
    versionsOf (unappliedMigrations [] [mkEntry 1 5, mkEntry 2 0]) = [2, 1] ∧
    ¬ (versionsOf (unappliedMigrations [] [mkEntry 1 5, mkEntry 2 0])).Sorted
      (· ≤ ·) := by
  exact ⟨by decide, by decide⟩

/-- C6 (amended): `Unapplied` returns exactly the entries of the
available set whose `Version` is absent from the applied set, sorted
ascending by `AppliedAt` then `Version` — which is ascending `Version`
order whenever the available entries share one applied-time (as with the
zero time stamped by `MigrationFromBytes`) — and an empty result, not an
error, when every available migration is applied. -/
theorem C6_unapplied_spec (A S : List Migration) :
    (unappliedMigrations A S).Perm
      (S.filter (fun s => !(hasVersion A s.Version))) ∧
    (unappliedMigrations A S).Sorted leM ∧
    (∀ s', s' ∈ unappliedMigrations A S →
      s' ∈ S ∧ s'.Version ∉ versionsOf A) ∧
    ((∀ s, s ∈ S → s.Version ∈ versionsOf A) →
      unappliedMigrations A S = []) ∧
    ((∀ s, s ∈ S → s.AppliedAt = 0) →
      (versionsOf (unappliedMigrations A S)).Sorted (· ≤ ·)) := by
  have hperm : (unappliedMigrations A S).Perm
      (S.filter (fun s => !(hasVersion A s.Version))) :=
    sortM_perm (migrationsExcept A S)
  refine ⟨hperm, sortM_sorted _, ?_, ?_, ?_⟩
  · intro s' hmem
    have hf := hperm.mem_iff.mp hmem
    have := List.mem_filter.mp hf
    refine ⟨this.1, ?_⟩
    intro hv
    have := this.2
    rw [Bool.not_eq_true'] at this
    rw [hasVersion_iff.mpr hv] at this
    exact Bool.noConfusion this
  · intro hall
    have hnil : S.filter (fun s => !(hasVersion A s.Version)) = [] := by
      rw [List.filter_eq_nil_iff]
      intro s hs
      rw [hasVersion_iff.mpr (hall s hs)]
      simp
    rw [hnil] at hperm
    exact hperm.eq_nil
  · intro h0
    unfold versionsOf
    refine List.pairwise_map.mpr ?_
    refine (sortM_sorted (migrationsExcept A S)).imp_of_mem ?_
    intro a b ha hb hle
    have h0a : a.AppliedAt = 0 :=
      h0 a (List.mem_filter.mp (hperm.mem_iff.mp ha)).1
    have h0b : b.AppliedAt = 0 :=
      h0 b (List.mem_filter.mp (hperm.mem_iff.mp hb)).1
    unfold leM lessM at hle
    omega

/-- Witness for C6: every available migration applied yields the empty
result (spec example E2). -/
theorem C6_unapplied_spec_witness :
    unappliedMigrations [mkEntry 1 0, mkEntry 2 0] [mkEntry 1 0, mkEntry 2 0] =
      [] :=
  (C6_unapplied_spec [mkEntry 1 0, mkEntry 2 0]
    [mkEntry 1 0, mkEntry 2 0]).2.2.2.1 (by decide)

/-- C7 (counterexample): the entry `Current()` selects is the maximum by
`(AppliedAt, Version)`, not by `Version`.  Here the applied set's
highest-`Version` entry (version `5`) has no counterpart in the available
set, yet `Current()` returns a migration (version `3`, the entry with the
latest applied-time) instead of none. -/
theorem C7_current_counterexample :
    versionsOf [mkEntry 5 0, mkEntry 3 9] = [5, 3] ∧
    versionsOf [mkEntry 3 0] = [3] ∧
    gloatCurrent [mkEntry 5 0, mkEntry 3 9] [mkEntry 3 0] =
      some (mkEntry 3 9) := by
  exact ⟨by decide, by decide, by decide⟩

/-- C7 (amended): `Current()` returns none (with no error) when the
applied set is empty, and likewise when the entry selected by
`Migrations.Current()` — the maximum by `AppliedAt` then `Version`, which
is the highest-`Version` entry whenever the applied entries share one
applied-time — has no entry with the same `Version` in the available
set. -/
theorem C7_current_none (A S : List Migration) :
    (A = [] → gloatCurrent A S = none) ∧
    (∀ c, migrationsCurrentVal A = some c → c.Version ∉ versionsOf S →
      gloatCurrent A S = none) := by
  constructor
  · intro h
    rw [h]
    rfl
  · intro c hc hv
    have hfind : S.reverse.find? (fun mg => mg.Version == c.Version) = none := by
      rw [List.find?_eq_none]
      intro x hx
      simp only [beq_iff_eq]
      intro hxv
      exact hv (mem_versionsOf.mpr ⟨x, List.mem_reverse.mp hx, hxv⟩)
    have hred : gloatCurrent A S =
        match S.reverse.find? (fun mg => mg.Version == c.Version) with
        | some mg => some { mg with AppliedAt := c.AppliedAt }
        | none => none := by
      unfold gloatCurrent
      rw [hc]
    rw [hred, hfind]

/-- Witness for C7: a dangling applied version yields none. -/
theorem C7_current_none_witness :
    migrationsCurrentVal [mkEntry 5 0] = some (mkEntry 5 0) ∧
    (5 : Int) ∉ versionsOf [mkEntry 3 0] ∧
    gloatCurrent [mkEntry 5 0] [mkEntry 3 0] = none :=
  ⟨by decide, by decide,
    (C7_current_none [mkEntry 5 0] [mkEntry 3 0]).2 (mkEntry 5 0)
      (by decide) (by decide)⟩

/-- C1 (counterexample): `AppliedAfter` returns descending, not
ascending, order.  With the applied ledger (descending) `[V3, V2, V1]`
and the same three migrations available, `AppliedAfter(V1)` returns the
versions `[3, 2]` — the spec's example E5 expects `[2, 3]` ascending. -/
theorem C1_appliedAfter_counterexample :
    Except.map versionsOf
      (appliedAfterFn [mkEntry 3 0, mkEntry 2 0, mkEntry 1 0]
        [mkEntry 1 0, mkEntry 2 0, mkEntry 3 0] 1) = .ok [3, 2] ∧
    ([3, 2] : List Int) ≠ [2, 3] := by
  exact ⟨rfl, by decide⟩

/-- C1 (amended): for every applied ledger containing the target version
(with the ledger's version-uniqueness invariant) and every available set,
`AppliedAfter` succeeds and returns the available-set entries whose
`Version` is among the applied entries encountered before the target in
descending scan order, with applied-time metadata copied from the applied
side, ordered descending by `AppliedAt` then `Version` (descending
`Version` when the copied applied-times coincide). -/
theorem C1_appliedAfter_spec (A S : List Migration) (v : Int)
    (hv : v ∈ versionsOf A) (hn : (versionsOf A).Nodup) :
    ∃ r, appliedAfterFn A S v = .ok r ∧
      r.Perm (migrationsIntersect
        (A.takeWhile (fun mg => mg.Version != v)) S) ∧
      r.Sorted geM := by
  unfold appliedAfterFn
  rw [appliedAfterScan_eq_takeWhile hv]
  have hsub : (versionsOf (A.takeWhile (fun mg => mg.Version != v))).Nodup :=
    List.Nodup.sublist ((List.takeWhile_sublist _).map _) hn
  refine ⟨_, rfl, ?_, reverseSortM_sorted _⟩
  have heq : migrationsIntersect
      (reverseSortM (A.takeWhile (fun mg => mg.Version != v))) S =
      migrationsIntersect (A.takeWhile (fun mg => mg.Version != v)) S :=
    migrationsIntersect_perm_left (reverseSortM_perm _)
      ((versionsOf_perm (reverseSortM_perm _)).nodup_iff.mpr hsub)
  rw [heq]
  exact reverseSortM_perm _

/-- Witness for C1's amended statement at the spec's E5 input. -/
theorem C1_appliedAfter_spec_witness :
    (1 : Int) ∈ versionsOf [mkEntry 3 0, mkEntry 2 0, mkEntry 1 0] ∧
    (versionsOf [mkEntry 3 0, mkEntry 2 0, mkEntry 1 0]).Nodup ∧
    (∃ r, appliedAfterFn [mkEntry 3 0, mkEntry 2 0, mkEntry 1 0]
        [mkEntry 1 0, mkEntry 2 0, mkEntry 3 0] 1 = .ok r ∧
      r.Perm (migrationsIntersect
        ([mkEntry 3 0, mkEntry 2 0, mkEntry 1 0].takeWhile
          (fun mg => mg.Version != 1))
        [mkEntry 1 0, mkEntry 2 0, mkEntry 3 0]) ∧
      r.Sorted geM) :=
  ⟨by decide, by decide,
    C1_appliedAfter_spec [mkEntry 3 0, mkEntry 2 0, mkEntry 1 0]
      [mkEntry 1 0, mkEntry 2 0, mkEntry 3 0] 1 (by decide) (by decide)⟩

/-- C9: for every path whose version prefix parses and every byte-reading
function, `MigrationFromBytes` (1) propagates a failure to read `up.sql`
and never returns a partial migration; (2) succeeds with empty `DownSQL`
when only `down.sql` is absent; (3) succeeds with the baseline options
when the options payload is absent; and (4) fails when an options payload
is present but malformed. -/
theorem C9_migrationFromBytes_spec (path : String)
    (read : String → Except String (List Nat)) (v : Int)
    (hv : versionFromPath path = .ok v) :
    (∀ e, read (pathJoin path "up.sql") = .error e →
      migrationFromBytes path read = .error e) ∧
    (∀ u e₁ o, read (pathJoin path "up.sql") = .ok u →
      read (pathJoin path "down.sql") = .error e₁ →
      parseMigrationOptions
        (((read (pathJoin path "options.json")).toOption).getD []) = .ok o →
      migrationFromBytes path read =
        .ok { UpSQL := u, DownSQL := [], Path := path, Version := v,
              Options := o, AppliedAt := 0 }) ∧
    (∀ u e₂, read (pathJoin path "up.sql") = .ok u →
      read (pathJoin path "options.json") = .error e₂ →
      migrationFromBytes path read =
        .ok { UpSQL := u,
              DownSQL := ((read (pathJoin path "down.sql")).toOption).getD [],
              Path := path, Version := v,
              Options := DefaultMigrationOptions, AppliedAt := 0 }) ∧
    (∀ u w e₃, read (pathJoin path "up.sql") = .ok u →
      read (pathJoin path "options.json") = .ok w →
      parseMigrationOptions w = .error e₃ →
      migrationFromBytes path read = .error e₃) := by
  refine ⟨?_, ?_, ?_, ?_⟩
  · intro e he
    unfold migrationFromBytes
    rw [hv, he]
  · intro u e₁ o hu hd ho
    simp only [Except.toOption] at ho
    simp only [migrationFromBytes, hv, hu, hd, ho, Except.toOption,
      Option.getD_none]
  · intro u e₂ hu ho
    simp only [migrationFromBytes, hv, hu, ho, Except.toOption,
      Option.getD_none, parseMigrationOptions, reduceIte]
  · intro u w e₃ hu hw hp
    simp only [migrationFromBytes, hv, hu, hw, Except.toOption,
      Option.getD_some, hp]

/-- Witness for C9: a concrete path and three concrete readers exercising
the missing-up, missing-down/missing-options and malformed-options
branches. -/
theorem C9_migrationFromBytes_spec_witness :
    versionFromPath "123_x" = .ok 123 ∧
    migrationFromBytes "123_x" (fun _ => .error "boom") = .error "boom" ∧
    migrationFromBytes "123_x"
      (fun p => if p = "123_x/up.sql" then .ok [7] else .error "missing") =
      .ok { UpSQL := [7], DownSQL := [], Path := "123_x", Version := 123,
            Options := DefaultMigrationOptions, AppliedAt := 0 } ∧
    migrationFromBytes "123_x"
      (fun p => if p = "123_x/up.sql" then .ok [7]
        else if p = "123_x/options.json" then .ok [9, 9]
        else .error "missing") = .error "malformed options payload" := by
  have hv : versionFromPath "123_x" = .ok 123 := rfl
  refine ⟨hv, ?_, ?_, ?_⟩
  · exact (C9_migrationFromBytes_spec "123_x" (fun _ => .error "boom")
      123 hv).1 "boom" rfl
  · exact (C9_migrationFromBytes_spec "123_x"
      (fun p => if p = "123_x/up.sql" then .ok [7] else .error "missing")
      123 hv).2.1 [7] "missing" DefaultMigrationOptions rfl rfl rfl
  · exact (C9_migrationFromBytes_spec "123_x"
      (fun p => if p = "123_x/up.sql" then .ok [7]
        else if p = "123_x/options.json" then .ok [9, 9]
        else .error "missing")
      123 hv).2.2.2 [7] [9, 9] "malformed options payload" rfl rfl rfl

end Gloat
